import Mathlib

/-!
Verification of the `assert_fs` crate: a shallow embedding of its path
handling, fixture population tools, temp-directory lifecycle and the
path-predicate conversion/assertion layer, together with theorems settling
the specification claims.  Filesystem state is modelled as a finite
association list from paths to entries; external collaborator crates
(`predicates`, `globwalk`, `tempfile`) are modelled from the specification
where noted.
-/

namespace AssertFs

/-- Model of a filesystem path (`std::path::Path` on Unix): an absolute
flag and the list of components. -/
structure RPath where
  absolute : Bool
  components : List String
deriving DecidableEq

/-- Model of `Path::join`: an absolute argument replaces the base entirely,
otherwise the components are appended. -/
def RPath.join (self other : RPath) : RPath :=
  if other.absolute then other
  else ⟨self.absolute, self.components ++ other.components⟩

/-- Model of `Path::parent`: `None` for an empty or bare-root path,
otherwise the path with the last component removed. -/
def RPath.parent : RPath → Option RPath
  | ⟨_, []⟩ => none
  | ⟨a, cs⟩ => some ⟨a, cs.dropLast⟩

/-- Append relative components to a path (`Path::join` with a relative
suffix given as components). -/
def RPath.extend (p : RPath) (rel : List String) : RPath :=
  ⟨p.absolute, p.components ++ rel⟩

/-- `q.prefixOf p`: `q` is `p` or an ancestor of `p`. -/
def RPath.prefixOf (q p : RPath) : Bool :=
  q.absolute == p.absolute && q.components.isPrefixOf p.components

/-- `q.strictPrefixOf p`: `q` is a proper ancestor of `p`. -/
def RPath.strictPrefixOf (q p : RPath) : Bool :=
  q.prefixOf p && decide (q.components.length < p.components.length)

/-- The nonempty prefixes of a path, shortest first: for `/a/b` this is
`[/a, /a/b]`.  These are exactly the directories that
`std::fs::create_dir_all` visits. -/
def RPath.ancestors (p : RPath) : List RPath :=
  (List.range p.components.length).map fun i => ⟨p.absolute, p.components.take (i + 1)⟩

/-- A filesystem entry: a regular file with byte content, a directory, or a
special entry (device file, fifo, …) that is neither. -/
inductive Entry where
  | file (content : List Nat)
  | dir
  | special
deriving DecidableEq

/-- First-match lookup in an association list of paths. -/
def lookupList : List (RPath × Entry) → RPath → Option Entry
  | [], _ => none
  | (q, e) :: rest, p => if q = p then some e else lookupList rest p

/-- Insert or replace a binding, keeping the position of an existing key and
appending a new key at the end. -/
def insertList : List (RPath × Entry) → RPath → Entry → List (RPath × Entry)
  | [], p, e => [(p, e)]
  | (q, e') :: rest, p, e =>
    if q = p then (p, e) :: rest else (q, e') :: insertList rest p e

/-- The filesystem state: a finite association list from paths to entries.
Paths with an empty component list (`""` and `/`) are implicit,
always-existing directories and are never stored. -/
structure Fs where
  entries : List (RPath × Entry)
deriving DecidableEq

def Fs.lookup (fs : Fs) (p : RPath) : Option Entry :=
  lookupList fs.entries p

def Fs.insert (fs : Fs) (p : RPath) (e : Entry) : Fs :=
  ⟨insertList fs.entries p e⟩

/-- A path that behaves as a directory: the implicit roots always do,
otherwise a stored `dir` entry is required. -/
def Fs.IsDirAt (fs : Fs) (p : RPath) : Prop :=
  p.components = [] ∨ fs.lookup p = some Entry.dir

instance (fs : Fs) (p : RPath) : Decidable (fs.IsDirAt p) := by
  unfold Fs.IsDirAt; infer_instance

/-- One step of `create_dir_all`: create each listed path as a directory if
missing, failing when it exists as a non-directory. -/
def mkdirChain (fs : Fs) : List RPath → Option Fs
  | [] => some fs
  | q :: qs =>
    match fs.lookup q with
    | some Entry.dir => mkdirChain fs qs
    | some _ => none
    | none => mkdirChain (fs.insert q Entry.dir) qs

/-- Model of `std::fs::create_dir_all`: creates every missing prefix of `p`
as a directory; fails if some prefix exists as a non-directory.  The empty
path and the bare root succeed doing nothing, as in `std`. -/
def Fs.createDirAll (fs : Fs) (p : RPath) : Option Fs :=
  mkdirChain fs p.ancestors

/-- Model of `std::fs::File::create`: the parent must exist as a directory,
the path must not be an existing directory or special entry, and the file is
created **empty** — truncating the content of an existing regular file, per
the documented `File::create` semantics. -/
def Fs.fileCreate (fs : Fs) (p : RPath) : Option Fs :=
  match p.parent with
  | none => none
  | some par =>
    if fs.IsDirAt par then
      match fs.lookup p with
      | some Entry.dir => none
      | some Entry.special => none
      | _ => some (fs.insert p (Entry.file []))
    else none

/-- Model of reading a file's bytes (`std::fs::read`): fails unless the path
is a regular file. -/
def Fs.readFile (fs : Fs) (p : RPath) : Option (List Nat) :=
  match fs.lookup p with
  | some (Entry.file c) => some c
  | _ => none

/-- Model of `std::fs::remove_dir_all` as used by `tempfile::TempDir`:
fails if the path is not an existing directory — e.g. when it was already
removed externally — otherwise removes the directory and everything
below it. -/
def Fs.removeDirAll (fs : Fs) (p : RPath) : Option Fs :=
  if fs.lookup p = some Entry.dir then
    some ⟨fs.entries.filter fun e => !(p.prefixOf e.1)⟩
  else none

/-- The fixture error kinds of `fixture/errors.rs`. -/
inductive FixtureKind where
  | Walk
  | CopyFile
  | WriteFile
  | CreateDir
  | Cleanup
  | Symlink
deriving DecidableEq

/-- Model of `FixtureError`.  The `cause` chain in the source only carries
display information, so just the `kind` is modelled. -/
structure FixtureError where
  kind : FixtureKind
deriving DecidableEq

/-- Model of `ensure_parent_dir` (`tools.rs`): if the path has a parent,
`create_dir_all` it, chaining failure to a `CreateDir` error. -/
def ensure_parent_dir (fs : Fs) (p : RPath) : Except FixtureError Fs :=
  match p.parent with
  | some par =>
    match fs.createDirAll par with
    | some fs' => .ok fs'
    | none => .error ⟨.CreateDir⟩
  | none => .ok fs

/-- Model of `touch` (`tools.rs`): `ensure_parent_dir`, then
`fs::File::create`, chaining a creation failure to a `WriteFile` error. -/
def touch (fs : Fs) (p : RPath) : Except FixtureError Fs :=
  match ensure_parent_dir fs p with
  | .error e => .error e
  | .ok fs1 =>
    match fs1.fileCreate p with
    | some fs' => .ok fs'
    | none => .error ⟨.WriteFile⟩

/-- Model of `write_binary` (`tools.rs`): `ensure_parent_dir`, then
`File::create` followed by `write_all`, both chained to `WriteFile`
errors. -/
def write_binary (fs : Fs) (p : RPath) (data : List Nat) :
    Except FixtureError Fs :=
  match ensure_parent_dir fs p with
  | .error e => .error e
  | .ok fs1 =>
    match fs1.fileCreate p with
    | some fs' => .ok (fs'.insert p (Entry.file data))
    | none => .error ⟨.WriteFile⟩

/-- Rust strings are modelled by their UTF-8 byte sequences. -/
abbrev Str := List Nat

/-- Model of `write_str` (`tools.rs`): `ensure_parent_dir`, then
`write_binary` on the UTF-8 bytes with any failure chained to a `WriteFile`
error. -/
def write_str (fs : Fs) (p : RPath) (data : Str) : Except FixtureError Fs :=
  match ensure_parent_dir fs p with
  | .error e => .error e
  | .ok fs1 =>
    match write_binary fs1 p data with
    | .ok fs' => .ok fs'
    | .error _ => .error ⟨.WriteFile⟩

/-- Model of the `create_dir_all` tool (`tools.rs`). -/
def create_dir_all (fs : Fs) (p : RPath) : Except FixtureError Fs :=
  match fs.createDirAll p with
  | some fs' => .ok fs'
  | none => .error ⟨.CreateDir⟩

/-- Internal state of `TempDir` (`dir.rs`): an owned temp directory or a
persisted path. -/
inductive TempDirInner where
  | temp (p : RPath)
  | persisted (p : RPath)
deriving DecidableEq

/-- Model of `TempDir` (`dir.rs`). -/
structure TempDir where
  temp : TempDirInner
deriving DecidableEq

/-- Model of `TempDir::path`. -/
def TempDir.path (t : TempDir) : RPath :=
  match t.temp with
  | .temp p => p
  | .persisted p => p

/-- Model of `TempDir::into_persistent`: extract the path from either state
and rewrap it as persisted. -/
def TempDir.into_persistent (t : TempDir) : TempDir :=
  match t.temp with
  | .temp p => ⟨.persisted p⟩
  | .persisted p => ⟨.persisted p⟩

/-- Model of `TempDir::into_persistent_if`. -/
def TempDir.into_persistent_if (t : TempDir) (yes : Bool) : TempDir :=
  if !yes then t else t.into_persistent

/-- Model of `TempDir::close`: a transient directory delegates to
`tempfile::TempDir::close` (a `remove_dir_all`), chaining failure to a
`Cleanup` error; a persisted one does nothing and succeeds. -/
def TempDir.close (t : TempDir) (fs : Fs) : Except FixtureError Fs :=
  match t.temp with
  | .temp p =>
    match fs.removeDirAll p with
    | some fs' => .ok fs'
    | none => .error ⟨.Cleanup⟩
  | .persisted _ => .ok fs

/-- Model of the destructor: best-effort removal for a transient directory
with errors swallowed, nothing for a persisted one. -/
def TempDir.dropRun (t : TempDir) (fs : Fs) : Fs :=
  match t.temp with
  | .temp p => (fs.removeDirAll p).getD fs
  | .persisted _ => fs

/-- Model of `ChildPath` (`child.rs`): a plain path value holding no
resource. -/
structure ChildPath where
  path : RPath
deriving DecidableEq

/-- Model of `PathChild::child` for `TempDir`: a pure path join, no
filesystem access and no failure. -/
def TempDir.child (t : TempDir) (p : RPath) : ChildPath :=
  ⟨t.path.join p⟩

/-- Model of `PathChild::child` for `ChildPath`. -/
def ChildPath.child (c : ChildPath) (p : RPath) : ChildPath :=
  ⟨c.path.join p⟩

/-- Model of `PathExistingChild::existing_child` for `TempDir`: join, then
`touch` the result. -/
def TempDir.existing_child (t : TempDir) (p : RPath) (fs : Fs) :
    Except FixtureError (Fs × ChildPath) :=
  match touch fs (t.child p).path with
  | .ok fs' => .ok (fs', t.child p)
  | .error e => .error e

/-- Model of `PathExistingChild::existing_child` for `ChildPath`. -/
def ChildPath.existing_child (c : ChildPath) (p : RPath) (fs : Fs) :
    Except FixtureError (Fs × ChildPath) :=
  match touch fs (c.child p).path with
  | .ok fs' => .ok (fs', c.child p)
  | .error e => .error e

/-- Whether a byte is a UTF-8 continuation byte (`0x80..0xBF`). -/
def utf8Cont (b : Nat) : Bool :=
  decide (128 ≤ b ∧ b < 192)

/-- UTF-8 validity of a byte sequence — the check behind
`str::from_utf8`: ASCII, and 2-, 3- and 4-byte sequences with the standard
range restrictions (no overlongs, no surrogates, maximum U+10FFFF). -/
def Utf8Valid : List Nat → Bool
  | [] => true
  | b :: rest =>
    if b < 128 then Utf8Valid rest
    else if b < 194 then false
    else if b < 224 then
      match rest with
      | b1 :: rest' => utf8Cont b1 && Utf8Valid rest'
      | [] => false
    else if b < 240 then
      match rest with
      | b1 :: b2 :: rest' =>
        decide ((if b = 224 then 160 else 128) ≤ b1 ∧
            b1 < (if b = 237 then 160 else 192)) &&
          utf8Cont b2 && Utf8Valid rest'
      | _ => false
    else if b < 245 then
      match rest with
      | b1 :: b2 :: b3 :: rest' =>
        decide ((if b = 240 then 144 else 128) ≤ b1 ∧
            b1 < (if b = 244 then 144 else 192)) &&
          utf8Cont b2 && utf8Cont b3 && Utf8Valid rest'
      | _ => false
    else false

/-- Structured explanation tree, the model of the `predicates_tree` case
rendered on failure: which comparison failed and the data it carried. -/
inductive CaseTree where
  | eqBytes (expected actual : List Nat)
  | diffText (expected actual : Str)
  | utf8Error
  | readError
  | custom (label : String)
deriving DecidableEq

/-- Model of `predicates_core::Predicate<str>` (also used for byte-slice
predicates, since both carriers are byte lists here): boolean evaluation
plus `find_case`, which returns a case exactly when the evaluation equals
the expected truth value. -/
structure StrPredicate where
  eval : Str → Bool
  findCase : Bool → Str → Option CaseTree

/-- Model of `predicates_core::Predicate<Path>`: evaluation and `find_case`
against the filesystem state and a path. -/
structure PathPredicate where
  eval : Fs → RPath → Bool
  findCase : Bool → Fs → RPath → Option CaseTree

/-- Modelled from the spec: the collaborator `predicates::ord::eq` on byte
content — exact equality, whose failure explanation carries both the
expected and the actual bytes. -/
def eqBytesPred (value : List Nat) : StrPredicate where
  eval := fun v => decide (v = value)
  findCase := fun expected v =>
    if decide (v = value) = expected then some (CaseTree.eqBytes value v)
    else none

/-- Modelled from the spec: the collaborator `predicates::str::diff` — a
line-oriented difference against the expected text; evaluation is equality
and the explanation carries both texts, from which the diff is rendered. -/
def diffPred (orig : Str) : StrPredicate where
  eval := fun v => decide (v = orig)
  findCase := fun expected v =>
    if decide (v = orig) = expected then some (CaseTree.diffText orig v)
    else none

/-- Modelled from the spec: the collaborator `Utf8Predicate` (`from_utf8`)
— decode the bytes as UTF-8 and apply the inner predicate; a decoding
failure is a predicate failure, not a panic. -/
def utf8Pred (inner : StrPredicate) : StrPredicate where
  eval := fun bs => if Utf8Valid bs then inner.eval bs else false
  findCase := fun expected bs =>
    if Utf8Valid bs then inner.findCase expected bs
    else if expected then none else some CaseTree.utf8Error

/-- Modelled from the spec: the collaborator `FileContentPredicate`
(`from_file_path`) — read the target path as bytes and apply the inner
predicate; a read failure makes the predicate false. -/
def fileContentPred (inner : StrPredicate) : PathPredicate where
  eval := fun fs p =>
    match fs.readFile p with
    | some bs => inner.eval bs
    | none => false
  findCase := fun expected fs p =>
    match fs.readFile p with
    | some bs => inner.findCase expected bs
    | none => if expected then none else some CaseTree.readError

/-- Model of `BytesContentPathPredicate::new` (`assert.rs`):
`predicates::ord::eq(value).from_file_path()`. -/
def BytesContentPathPredicate.new (value : List Nat) : PathPredicate :=
  fileContentPred (eqBytesPred value)

/-- Model of `StrContentPathPredicate::new` (`assert.rs`):
`predicates::str::diff(value).from_utf8().from_file_path()`. -/
def StrContentPathPredicate.new (value : Str) : PathPredicate :=
  fileContentPred (utf8Pred (diffPred value))

/-- Model of `StrPathPredicate::new` (`assert.rs`):
`value.from_utf8().from_file_path()`. -/
def StrPathPredicate.new (value : StrPredicate) : PathPredicate :=
  fileContentPred (utf8Pred value)

/-- Model of `impl IntoPathPredicate<P> for P` (`assert.rs`): the identity
conversion for values already satisfying `Predicate<Path>`. -/
def intoPathOfPred (p : PathPredicate) : PathPredicate := p

/-- Model of `impl IntoPathPredicate<BytesContentPathPredicate> for &[u8]`. -/
def intoPathOfBytes (b : List Nat) : PathPredicate :=
  BytesContentPathPredicate.new b

/-- Model of `impl IntoPathPredicate<StrContentPathPredicate> for String`. -/
def intoPathOfString (s : Str) : PathPredicate :=
  StrContentPathPredicate.new s

/-- Model of `impl IntoPathPredicate<StrContentPathPredicate> for &str`
(`new(self.to_owned())`). -/
def intoPathOfStrRef (s : Str) : PathPredicate :=
  StrContentPathPredicate.new s

/-- Model of `impl IntoPathPredicate<StrContentPathPredicate> for &String`
(`new(self.to_owned())`). -/
def intoPathOfStringRef (s : Str) : PathPredicate :=
  StrContentPathPredicate.new s

/-- Model of `impl IntoPathPredicate<StrPathPredicate<P>> for P` where
`P : Predicate<str>`. -/
def intoPathOfStrPred (q : StrPredicate) : PathPredicate :=
  StrPathPredicate.new q

/-- The shorthand values accepted by `assert`: bytes, text (all three Rust
string shapes convert identically, see `intoPathOfStrRef` and
`intoPathOfStringRef`), a text predicate, or a path predicate. -/
inductive Shorthand where
  | bytes (b : List Nat)
  | text (s : Str)
  | strPred (q : StrPredicate)
  | pathPred (p : PathPredicate)

/-- Dispatch of the `IntoPathPredicate` conversion over the shorthand
variants. -/
def Shorthand.intoPath : Shorthand → PathPredicate
  | .bytes b => intoPathOfBytes b
  | .text s => intoPathOfString s
  | .strPred q => intoPathOfStrPred q
  | .pathPred p => intoPathOfPred p

/-- The data carried by the panic raised on assertion failure: the
formatted message contains the explanation tree and the tested path. -/
structure PanicMsg where
  tree : CaseTree
  path : RPath

/-- Model of the free function `assert` (`assert.rs`): convert via
`into_path`, call `find_case(false, path)`, and on `Some(case)` abort with
the case tree and the tested path. -/
def assert (fs : Fs) (path : RPath) (sh : Shorthand) : Except PanicMsg Unit :=
  match sh.intoPath.findCase false fs path with
  | some c => .error ⟨c, path⟩
  | none => .ok ()

/-- Model of `PathAssert for ChildPath`: delegate to `assert` and return
`self` when no panic occurred. -/
def ChildPath.assert (c : ChildPath) (sh : Shorthand) (fs : Fs) :
    Except PanicMsg ChildPath :=
  (AssertFs.assert fs c.path sh).map fun _ => c

/-- Model of `PathAssert for TempDir`. -/
def TempDir.assert (t : TempDir) (sh : Shorthand) (fs : Fs) :
    Except PanicMsg TempDir :=
  (AssertFs.assert fs t.path sh).map fun _ => t

/-- Internal state of `NamedTempFile` (`file.rs`). -/
inductive NamedTempFileInner where
  | temp (dir : RPath)
  | persisted
deriving DecidableEq

/-- Model of `NamedTempFile` (`file.rs`): owning state plus the recorded
file path. -/
structure NamedTempFile where
  temp : NamedTempFileInner
  path : RPath
deriving DecidableEq

/-- Model of `PathAssert for NamedTempFile`. -/
def NamedTempFile.assert (n : NamedTempFile) (sh : Shorthand) (fs : Fs) :
    Except PanicMsg NamedTempFile :=
  (AssertFs.assert fs n.path sh).map fun _ => n

/-- State-threaded file read: the primitive returns the bytes and the
filesystem it leaves behind — reading leaves the state unchanged. -/
def Fs.readFileSt (p : RPath) (fs : Fs) : Option (List Nat) × Fs :=
  (fs.readFile p, fs)

/-- State-threaded rendering of the built-in content predicates'
`find_case`: the only filesystem effect of evaluation is the read
primitive, whose resulting state is threaded through. -/
def fileContentFindCaseSt (inner : StrPredicate) (expected : Bool)
    (p : RPath) (fs : Fs) : Option CaseTree × Fs :=
  match Fs.readFileSt p fs with
  | (some bs, fs') => (inner.findCase expected bs, fs')
  | (none, fs') => ((if expected then none else some CaseTree.readError), fs')

/-- State-threaded `find_case` of the converted predicate for each
shorthand variant.  A caller-supplied path predicate takes the state by
shared reference (`&Path`, `&self`), so it observes and returns the same
state. -/
def Shorthand.findCaseSt : Shorthand → Bool → RPath → Fs → Option CaseTree × Fs
  | .bytes b, e, p, fs => fileContentFindCaseSt (eqBytesPred b) e p fs
  | .text s, e, p, fs => fileContentFindCaseSt (utf8Pred (diffPred s)) e p fs
  | .strPred q, e, p, fs => fileContentFindCaseSt (utf8Pred q) e p fs
  | .pathPred pr, e, p, fs => (pr.findCase e fs p, fs)

/-- State-threaded rendering of the `assert` entry point, making the
filesystem state before and after the call explicit. -/
def assertSt (p : RPath) (sh : Shorthand) (fs : Fs) :
    Except PanicMsg Unit × Fs :=
  match sh.findCaseSt false p fs with
  | (some c, fs') => (.error ⟨c, p⟩, fs')
  | (none, fs') => (.ok (), fs')

/-- Modelled from the spec: glob matching of a single name against a
pattern — `*` matches any run of characters, everything else is literal.
Indexed by fuel so the recursion is structural; every step consumes one
unit of fuel and shortens the combined input, so the fuel supplied by
`globMatchChars` below is never exhausted. -/
def globMatchFuel : Nat → List Char → List Char → Bool
  | 0, _, _ => false
  | _ + 1, [], [] => true
  | n + 1, '*' :: ps, [] => globMatchFuel n ps []
  | n + 1, '*' :: ps, c :: cs =>
    globMatchFuel n ps (c :: cs) || globMatchFuel n ('*' :: ps) cs
  | n + 1, p :: ps, c :: cs => p == c && globMatchFuel n ps cs
  | _ + 1, _ :: _, [] => false
  | _ + 1, [], _ :: _ => false

def globMatchChars (ps cs : List Char) : Bool :=
  globMatchFuel (ps.length + cs.length + 1) ps cs

/-- Split a character list at every occurrence of `sep` (the model of
`String::split` for a one-character separator). -/
def splitOnChar (sep : Char) : List Char → List (List Char)
  | [] => [[]]
  | c :: cs =>
    match splitOnChar sep cs with
    | [] => if c = sep then [[], []] else [[c]]
    | seg :: rest =>
      if c = sep then [] :: seg :: rest
      else (c :: seg) :: rest

/-- Modelled from the spec: the collaborator glob service — a pattern with
a `/` is matched component-wise against the relative path, one without is
matched against the file name (gitignore-style). -/
def patternMatches (pat : String) (rel : List String) : Bool :=
  if pat.data.contains '/' then
    let segs := splitOnChar '/' pat.data
    segs.length == rel.length &&
      (List.zip segs rel).all fun sr => globMatchChars sr.1 sr.2.data
  else
    match rel.getLast? with
    | some name => globMatchChars pat.data name.data
    | none => false

def anyPatternMatches (pats : List String) (rel : List String) : Bool :=
  pats.any fun pat => patternMatches pat rel

/-- Modelled from the spec: the walk collaborator — every stored entry
strictly below `src` whose relative path matches one of the patterns, in
stored order, tagged with its relative components.  The model has no
symlink entries, so link-following is the identity. -/
def walkFun (src : RPath) (pats : List String) (qe : RPath × Entry) :
    Option (List String × Entry) :=
  if src.strictPrefixOf qe.1 then
    if anyPatternMatches pats (qe.1.components.drop src.components.length) then
      some (qe.1.components.drop src.components.length, qe.2)
    else none
  else none

def walkEntries (entries : List (RPath × Entry)) (src : RPath)
    (pats : List String) : List (List String × Entry) :=
  entries.filterMap (walkFun src pats)

/-- The relative path a walked key contributes, if any: the key part of
`walkFun` (the entry payload is passed through unchanged). -/
def walkRelOf (src : RPath) (pats : List String) (q : RPath) :
    Option (List String) :=
  if src.strictPrefixOf q then
    if anyPatternMatches pats (q.components.drop src.components.length) then
      some (q.components.drop src.components.length)
    else none
  else none

def Fs.walkMatching (fs : Fs) (src : RPath) (pats : List String) :
    List (List String × Entry) :=
  walkEntries fs.entries src pats

/-- Model of `Path::canonicalize` in this model: the path must exist as a
directory (the implicit roots always do); resolution is the identity since
the model has no symlinks and no `.`/`..` indirection. -/
def Fs.canonicalize (fs : Fs) (p : RPath) : Option RPath :=
  if fs.IsDirAt p then some p else none

/-- Model of `std::fs::copy`: read the source regular file at copy time,
then create/truncate the destination (its parent must exist, and it must
not be a directory or special entry) and write the bytes. -/
def fsCopy (fs : Fs) (s d : RPath) : Option Fs :=
  match fs.readFile s with
  | some c =>
    match fs.fileCreate d with
    | some fs' => some (fs'.insert d (Entry.file c))
    | none => none
  | none => none

/-- One iteration of the `copy_files` loop (`tools.rs`): re-create a
directory entry under the target, copy a file entry (creating intermediate
parents first), and silently skip anything else.  The parent taken before a
file copy is the `target_path.parent().expect(..)` of the source. -/
def copyEntryStep (target src : RPath) (acc : Fs) :
    List String × Entry → Except FixtureError Fs
  | (rel, Entry.dir) =>
    match acc.createDirAll (target.extend rel) with
    | some fs' => .ok fs'
    | none => .error ⟨.CreateDir⟩
  | (rel, Entry.file _) =>
    match acc.createDirAll
        ⟨(target.extend rel).absolute, (target.extend rel).components.dropLast⟩ with
    | some fs1 =>
      match fsCopy fs1 (src.extend rel) (target.extend rel) with
      | some fs2 => .ok fs2
      | none => .error ⟨.CopyFile⟩
    | none => .error ⟨.CreateDir⟩
  | (_, Entry.special) => .ok acc

/-- The `for entry in glob-walker` loop of `copy_files`. -/
def copyLoop (target src : RPath) :
    Fs → List (List String × Entry) → Except FixtureError Fs
  | acc, [] => .ok acc
  | acc, e :: es =>
    match copyEntryStep target src acc e with
    | .ok acc' => copyLoop target src acc' es
    | .error err => .error err

/-- Model of `copy_files` (`tools.rs`): canonicalize the source (chained to
a `Walk` error), walk it matching the glob patterns, and process each
matching entry in order. -/
def copy_files (fs : Fs) (target source : RPath) (pats : List String) :
    Except FixtureError Fs :=
  match fs.canonicalize source with
  | none => .error ⟨.Walk⟩
  | some src => copyLoop target src fs (fs.walkMatching src pats)

/-- Proof-internal postcondition of one processed walk entry after a
successful `copy_files` run over the initial filesystem `fs0`: a directory
entry left the whole ancestor chain of its target in place as directories;
a file entry also left the copied content at its target, matching the
source content in `fs0`; special entries left nothing. -/
def entryDone (fs0 acc : Fs) (target src : RPath) :
    List String × Entry → Prop
  | (rel, Entry.dir) =>
      ∀ q ∈ (target.extend rel).ancestors, acc.lookup q = some Entry.dir
  | (rel, Entry.file _) =>
      (∀ q ∈ (RPath.mk (target.extend rel).absolute
          (target.extend rel).components.dropLast).ancestors,
        acc.lookup q = some Entry.dir)
    ∧ ∃ c, fs0.readFile (src.extend rel) = some c
        ∧ acc.lookup (target.extend rel) = some (Entry.file c)
  | (_, Entry.special) => True

/-! ## Basic lemmas about the filesystem map -/

theorem lookupList_insertList_self (l : List (RPath × Entry)) (p : RPath)
    (e : Entry) : lookupList (insertList l p e) p = some e := by
  induction l with
  | nil => simp [insertList, lookupList]
  | cons hd tl ih =>
    obtain ⟨q, e'⟩ := hd
    by_cases h : q = p <;> simp [insertList, lookupList, h, ih]

theorem lookupList_insertList_ne (l : List (RPath × Entry)) (p r : RPath)
    (e : Entry) (h : p ≠ r) :
    lookupList (insertList l p e) r = lookupList l r := by
  induction l with
  | nil => simp [insertList, lookupList, h]
  | cons hd tl ih =>
    obtain ⟨q, e'⟩ := hd
    by_cases hq : q = p
    · subst hq
      simp [insertList, lookupList, h]
    · simp [insertList, lookupList, hq, ih]

theorem insertList_lookup_self (l : List (RPath × Entry)) (p : RPath)
    (e : Entry) (h : lookupList l p = some e) : insertList l p e = l := by
  induction l with
  | nil => simp [lookupList] at h
  | cons hd tl ih =>
    obtain ⟨q, e'⟩ := hd
    by_cases hq : q = p
    · subst hq
      simp [lookupList] at h
      simp [insertList, h]
    · simp [lookupList, hq] at h
      simp [insertList, hq, ih h]

theorem insertList_insertList_same (l : List (RPath × Entry)) (p : RPath)
    (e1 e2 : Entry) :
    insertList (insertList l p e1) p e2 = insertList l p e2 := by
  induction l with
  | nil => simp [insertList]
  | cons hd tl ih =>
    obtain ⟨q, e'⟩ := hd
    by_cases hq : q = p
    · simp [insertList, hq]
    · simp [insertList, hq, ih]

theorem Fs.lookup_insert_self (fs : Fs) (p : RPath) (e : Entry) :
    (fs.insert p e).lookup p = some e :=
  lookupList_insertList_self fs.entries p e

theorem Fs.lookup_insert_ne (fs : Fs) (p r : RPath) (e : Entry) (h : p ≠ r) :
    (fs.insert p e).lookup r = fs.lookup r :=
  lookupList_insertList_ne fs.entries p r e h

theorem Fs.insert_id (fs : Fs) (p : RPath) (e : Entry)
    (h : fs.lookup p = some e) : fs.insert p e = fs := by
  unfold Fs.insert
  rw [insertList_lookup_self fs.entries p e h]

theorem Fs.insert_insert (fs : Fs) (p : RPath) (e1 e2 : Entry) :
    (fs.insert p e1).insert p e2 = fs.insert p e2 := by
  unfold Fs.insert
  simp [insertList_insertList_same]

/-! ## Lemmas about path structure -/

theorem RPath.parent_some {p par : RPath} (h : p.parent = some par) :
    p.components ≠ [] ∧ par = ⟨p.absolute, p.components.dropLast⟩ := by
  obtain ⟨a, cs⟩ := p
  cases cs with
  | nil => simp [RPath.parent] at h
  | cons c cs' =>
    simp [RPath.parent] at h
    exact ⟨by simp, h.symm⟩

theorem RPath.mem_ancestors {q p : RPath} :
    q ∈ p.ancestors ↔
      ∃ i, i < p.components.length ∧ q = ⟨p.absolute, p.components.take (i + 1)⟩ := by
  unfold RPath.ancestors
  simp [List.mem_map, List.mem_range]
  constructor
  · rintro ⟨i, hi, rfl⟩
    exact ⟨i, hi, rfl⟩
  · rintro ⟨i, hi, rfl⟩
    exact ⟨i, hi, rfl⟩

theorem RPath.mem_ancestors_ne_nil {q p : RPath} (h : q ∈ p.ancestors) :
    q.components ≠ [] := by
  obtain ⟨i, hi, rfl⟩ := RPath.mem_ancestors.mp h
  intro hnil
  simp only at hnil
  have hlen : (p.components.take (i + 1)).length = 0 := by rw [hnil]; rfl
  rw [List.length_take] at hlen
  omega

theorem RPath.mem_ancestors_length {q p : RPath} (h : q ∈ p.ancestors) :
    q.components.length ≤ p.components.length := by
  obtain ⟨i, hi, rfl⟩ := RPath.mem_ancestors.mp h
  simp

theorem RPath.self_mem_ancestors {p : RPath} (h : p.components ≠ []) :
    p ∈ p.ancestors := by
  rw [RPath.mem_ancestors]
  refine ⟨p.components.length - 1, ?_, ?_⟩
  · cases hc : p.components with
    | nil => exact absurd hc h
    | cons a l => simp
  · have hlen : p.components.length - 1 + 1 = p.components.length := by
      cases hc : p.components with
      | nil => exact absurd hc h
      | cons a l => simp
    rw [hlen, List.take_length]

/-! ## Claim theorems: conversion layer and assertion entry point -/

/-- C3: converting a value that already satisfies the path-predicate
capability is the identity: the predicate is returned unchanged, so both
evaluation and case search of the conversion result agree with the original
predicate on every filesystem and path. -/
theorem into_path_identity (p : PathPredicate) :
    intoPathOfPred p = p
  ∧ Shorthand.intoPath (.pathPred p) = p
  ∧ (∀ fs path, (intoPathOfPred p).eval fs path = p.eval fs path)
  ∧ (∀ e fs path, (intoPathOfPred p).findCase e fs path = p.findCase e fs path) :=
  ⟨rfl, rfl, fun _ _ => rfl, fun _ _ _ => rfl⟩

/-- C9: `child` is a pure path join — it takes no filesystem state and is
total, its path is the join of the base path with the argument, and an
absolute argument replaces the base entirely, so the result can point
outside the sandbox root. -/
theorem child_pure_join (t : TempDir) (c : ChildPath) (p : RPath) :
    (t.child p).path = t.path.join p
  ∧ (c.child p).path = c.path.join p
  ∧ (p.absolute = true → (t.child p).path = p ∧ (c.child p).path = p) := by
  refine ⟨rfl, rfl, fun h => ?_⟩
  constructor <;> simp [TempDir.child, ChildPath.child, RPath.join, h]

/-- C9 witness: a concrete absolute argument discards the base. -/
theorem child_pure_join_witness :
    (⟨true, ["etc"]⟩ : RPath).absolute = true
  ∧ ((TempDir.child ⟨.temp ⟨true, ["tmp", "d"]⟩⟩ ⟨true, ["etc"]⟩).path
        = ⟨true, ["etc"]⟩
    ∧ (ChildPath.child ⟨⟨true, ["tmp", "d"]⟩⟩ ⟨true, ["etc"]⟩).path
        = ⟨true, ["etc"]⟩) :=
  ⟨rfl, (child_pure_join ⟨.temp ⟨true, ["tmp", "d"]⟩⟩ ⟨⟨true, ["tmp", "d"]⟩⟩
      ⟨true, ["etc"]⟩).2.2 rfl⟩

/-- C1: the assertion entry point first converts the shorthand via
`into_path`, then calls `find_case(false, path)` on the converted
predicate; on `Some(case)` it aborts with a message carrying the
explanation tree and the tested path, and on `None` it returns the original
handle unchanged — for all three handle types. -/
theorem assert_entry_spec (sh : Shorthand) (fs : Fs) (c : ChildPath)
    (t : TempDir) (n : NamedTempFile) :
    (∀ case, sh.intoPath.findCase false fs c.path = some case →
      c.assert sh fs = .error ⟨case, c.path⟩)
  ∧ (sh.intoPath.findCase false fs c.path = none → c.assert sh fs = .ok c)
  ∧ (∀ case, sh.intoPath.findCase false fs t.path = some case →
      t.assert sh fs = .error ⟨case, t.path⟩)
  ∧ (sh.intoPath.findCase false fs t.path = none → t.assert sh fs = .ok t)
  ∧ (∀ case, sh.intoPath.findCase false fs n.path = some case →
      n.assert sh fs = .error ⟨case, n.path⟩)
  ∧ (sh.intoPath.findCase false fs n.path = none → n.assert sh fs = .ok n) := by
  refine ⟨fun case h => ?_, fun h => ?_, fun case h => ?_, fun h => ?_,
    fun case h => ?_, fun h => ?_⟩ <;>
    simp [ChildPath.assert, TempDir.assert, NamedTempFile.assert,
      AssertFs.assert, h, Except.map]

/-- C1 witness: a missing file makes `find_case(false, _)` produce a case
and the assertion abort with it; an empty existing file satisfies the empty
byte shorthand and the handle is returned unchanged. -/
theorem assert_entry_spec_witness :
    (ChildPath.assert ⟨⟨true, ["x"]⟩⟩ (.bytes []) ⟨[]⟩
      = .error ⟨CaseTree.readError, ⟨true, ["x"]⟩⟩)
  ∧ (ChildPath.assert ⟨⟨true, ["x"]⟩⟩ (.bytes [])
      ⟨[(⟨true, ["x"]⟩, Entry.file [])]⟩ = .ok ⟨⟨true, ["x"]⟩⟩)
  ∧ (TempDir.assert ⟨.temp ⟨true, ["x"]⟩⟩ (.bytes []) ⟨[]⟩
      = .error ⟨CaseTree.readError, ⟨true, ["x"]⟩⟩)
  ∧ (NamedTempFile.assert ⟨.persisted, ⟨true, ["x"]⟩⟩ (.bytes []) ⟨[]⟩
      = .error ⟨CaseTree.readError, ⟨true, ["x"]⟩⟩) :=
  ⟨(assert_entry_spec (.bytes []) ⟨[]⟩ ⟨⟨true, ["x"]⟩⟩ ⟨.temp ⟨true, ["x"]⟩⟩
      ⟨.persisted, ⟨true, ["x"]⟩⟩).1 CaseTree.readError (by decide),
   (assert_entry_spec (.bytes []) ⟨[(⟨true, ["x"]⟩, Entry.file [])]⟩
      ⟨⟨true, ["x"]⟩⟩ ⟨.temp ⟨true, ["x"]⟩⟩ ⟨.persisted, ⟨true, ["x"]⟩⟩).2.1
      (by decide),
   (assert_entry_spec (.bytes []) ⟨[]⟩ ⟨⟨true, ["x"]⟩⟩ ⟨.temp ⟨true, ["x"]⟩⟩
      ⟨.persisted, ⟨true, ["x"]⟩⟩).2.2.1 CaseTree.readError (by decide),
   (assert_entry_spec (.bytes []) ⟨[]⟩ ⟨⟨true, ["x"]⟩⟩ ⟨.temp ⟨true, ["x"]⟩⟩
      ⟨.persisted, ⟨true, ["x"]⟩⟩).2.2.2.2.1 CaseTree.readError (by decide)⟩

/-- C10: evaluating an assertion is read-only — in the state-threaded
rendering of the entry point the filesystem after the call equals the
filesystem before it, for every shorthand and path, and the computed
outcome agrees with the direct model of `assert`. -/
theorem assert_readonly (sh : Shorthand) (p : RPath) (fs : Fs) :
    (assertSt p sh fs).2 = fs ∧ (assertSt p sh fs).1 = assert fs p sh := by
  have hfc : ∀ (inner : StrPredicate),
      fileContentFindCaseSt inner false p fs
        = ((fileContentPred inner).findCase false fs p, fs) := by
    intro inner
    unfold fileContentFindCaseSt Fs.readFileSt fileContentPred
    rcases h : fs.readFile p with _ | bs <;> simp [h]
  have hst : sh.findCaseSt false p fs = (sh.intoPath.findCase false fs p, fs) := by
    cases sh <;>
      simp [Shorthand.findCaseSt, Shorthand.intoPath, intoPathOfBytes,
        intoPathOfString, intoPathOfStrPred, intoPathOfPred,
        BytesContentPathPredicate.new, StrContentPathPredicate.new,
        StrPathPredicate.new, hfc]
  cases hres : sh.intoPath.findCase false fs p <;>
    simp [assertSt, hst, hres, AssertFs.assert]

/-! ## Lemmas about directory creation and the population tools -/

theorem mkdirChain_extends {qs : List RPath} {fs fs' : Fs}
    (h : mkdirChain fs qs = some fs') :
    ∀ r e, fs.lookup r = some e → fs'.lookup r = some e := by
  induction qs generalizing fs with
  | nil =>
    unfold mkdirChain at h
    cases h
    exact fun r e hr => hr
  | cons q qs ih =>
    unfold mkdirChain at h
    cases hl : fs.lookup q with
    | none =>
      rw [hl] at h
      intro r e hr
      have hne : q ≠ r := by
        intro hqr
        rw [hqr, hr] at hl
        cases hl
      refine ih h r e ?_
      rw [Fs.lookup_insert_ne fs q r Entry.dir hne]
      exact hr
    | some e0 =>
      rw [hl] at h
      cases e0 with
      | dir => exact ih h
      | file c => cases h
      | special => cases h

theorem mkdirChain_dirs {qs : List RPath} {fs fs' : Fs}
    (h : mkdirChain fs qs = some fs') :
    ∀ q ∈ qs, fs'.lookup q = some Entry.dir := by
  induction qs generalizing fs with
  | nil => intro q hq; cases hq
  | cons q0 qs ih =>
    unfold mkdirChain at h
    intro q hq
    cases hl : fs.lookup q0 with
    | none =>
      rw [hl] at h
      rcases List.mem_cons.mp hq with rfl | hq'
      · exact mkdirChain_extends h q Entry.dir (Fs.lookup_insert_self fs q Entry.dir)
      · exact ih h q hq'
    | some e0 =>
      rw [hl] at h
      cases e0 with
      | dir =>
        rcases List.mem_cons.mp hq with rfl | hq'
        · exact mkdirChain_extends h q Entry.dir hl
        · exact ih h q hq'
      | file c => cases h
      | special => cases h

theorem mkdirChain_outside {qs : List RPath} {fs fs' : Fs}
    (h : mkdirChain fs qs = some fs') (r : RPath) (hr : ∀ q ∈ qs, q ≠ r) :
    fs'.lookup r = fs.lookup r := by
  induction qs generalizing fs with
  | nil => unfold mkdirChain at h; cases h; rfl
  | cons q0 qs ih =>
    unfold mkdirChain at h
    cases hl : fs.lookup q0 with
    | none =>
      rw [hl] at h
      rw [ih h fun q hq => hr q (List.mem_cons_of_mem q0 hq)]
      exact Fs.lookup_insert_ne fs q0 r Entry.dir (hr q0 (List.mem_cons_self q0 qs))
    | some e0 =>
      rw [hl] at h
      cases e0 with
      | dir => exact ih h fun q hq => hr q (List.mem_cons_of_mem q0 hq)
      | file c => cases h
      | special => cases h

theorem mkdirChain_id {qs : List RPath} {fs : Fs}
    (h : ∀ q ∈ qs, fs.lookup q = some Entry.dir) :
    mkdirChain fs qs = some fs := by
  induction qs with
  | nil => rfl
  | cons q qs ih =>
    unfold mkdirChain
    rw [h q (List.mem_cons_self q qs)]
    exact ih fun r hr => h r (List.mem_cons_of_mem q hr)

theorem Fs.fileCreate_some {fs fs' : Fs} {p : RPath}
    (h : fs.fileCreate p = some fs') : fs' = fs.insert p (Entry.file []) := by
  unfold Fs.fileCreate at h
  split at h
  · cases h
  · split at h
    · split at h
      · cases h
      · cases h
      · cases h; rfl
    · cases h

theorem ensure_parent_dir_ok_parent {fs fs1 : Fs} {p par : RPath}
    (h : ensure_parent_dir fs p = .ok fs1) (hp : p.parent = some par) :
    fs.createDirAll par = some fs1 := by
  unfold ensure_parent_dir at h
  rw [hp] at h
  simp only [] at h
  cases hc : fs.createDirAll par with
  | none => rw [hc] at h; cases h
  | some f => rw [hc] at h; cases h; rfl

theorem ensure_parent_dir_error {fs : Fs} {p : RPath} {e : FixtureError}
    (h : ensure_parent_dir fs p = .error e) : e = ⟨.CreateDir⟩ := by
  unfold ensure_parent_dir at h
  cases hp : p.parent with
  | none => rw [hp] at h; simp only [] at h; cases h
  | some par =>
    rw [hp] at h
    simp only [] at h
    cases hc : fs.createDirAll par with
    | none => rw [hc] at h; cases h; rfl
    | some f => rw [hc] at h; cases h

theorem ancestors_of_parent_ne {p par q : RPath} (hp : p.parent = some par)
    (hq : q ∈ par.ancestors) : p ≠ q := by
  obtain ⟨hne, hpar⟩ := RPath.parent_some hp
  have h1 := RPath.mem_ancestors_length hq
  rw [hpar] at h1
  simp only [List.length_dropLast] at h1
  intro hpq
  rw [← hpq] at h1
  have hlen : 1 ≤ p.components.length := by
    cases hc : p.components with
    | nil => exact absurd hc hne
    | cons a l => simp
  omega

theorem touch_ok_read {fs fs' : Fs} {p : RPath} (h : touch fs p = .ok fs') :
    fs'.readFile p = some [] := by
  unfold touch at h
  split at h
  · cases h
  · rename_i fs1 he
    split at h
    · rename_i fs2 hc
      cases h
      rw [Fs.fileCreate_some hc]
      unfold Fs.readFile
      rw [Fs.lookup_insert_self]
    · cases h

theorem touch_ok_parent {fs fs' : Fs} {p : RPath} (h : touch fs p = .ok fs') :
    ∀ par, p.parent = some par →
      fs'.IsDirAt par ∧ ∀ q ∈ par.ancestors, fs'.lookup q = some Entry.dir := by
  intro par hp
  unfold touch at h
  split at h
  · cases h
  · rename_i fs1 he
    split at h
    · rename_i fs2 hc
      cases h
      have hcd := ensure_parent_dir_ok_parent he hp
      have hdirs := mkdirChain_dirs hcd
      have hq : ∀ q ∈ par.ancestors, fs'.lookup q = some Entry.dir := by
        intro q hq
        rw [Fs.fileCreate_some hc,
          Fs.lookup_insert_ne fs1 p q (Entry.file []) (ancestors_of_parent_ne hp hq)]
        exact hdirs q hq
      refine ⟨?_, hq⟩
      by_cases hpar : par.components = []
      · exact Or.inl hpar
      · exact Or.inr (hq par (RPath.self_mem_ancestors hpar))
    · cases h

theorem touch_error_kind {fs : Fs} {p : RPath} {e : FixtureError}
    (h : touch fs p = .error e) : e.kind = .CreateDir ∨ e.kind = .WriteFile := by
  unfold touch at h
  split at h
  · rename_i e0 he
    cases h
    rw [ensure_parent_dir_error he]
    exact Or.inl rfl
  · split at h
    · cases h
    · cases h
      exact Or.inr rfl

theorem write_binary_ok {fs fs' : Fs} {p : RPath} {data : List Nat}
    (h : write_binary fs p data = .ok fs') : fs'.readFile p = some data := by
  unfold write_binary at h
  split at h
  · cases h
  · split at h
    · cases h
      unfold Fs.readFile
      rw [Fs.lookup_insert_self]
    · cases h

theorem TempDir.close_temp (p : RPath) (fs : Fs) :
    TempDir.close ⟨.temp p⟩ fs =
      (match fs.removeDirAll p with
        | some fs' => .ok fs'
        | none => .error ⟨.Cleanup⟩) := rfl

theorem TempDir.close_persisted (p : RPath) (fs : Fs) :
    TempDir.close ⟨.persisted p⟩ fs = .ok fs := rfl

/-! ## Claim theorems: population tools -/

/-- C2 counterexample: `touch` on an existing file with content `[49]`
succeeds but leaves the file EMPTY — `fs::File::create` truncates — so an
already-existing file's content is not left in place. -/
theorem touch_truncates_counterexample :
    touch ⟨[(⟨true, ["f"]⟩, Entry.file [49])]⟩ ⟨true, ["f"]⟩
      = .ok ⟨[(⟨true, ["f"]⟩, Entry.file [])]⟩
  ∧ Fs.readFile ⟨[(⟨true, ["f"]⟩, Entry.file [49])]⟩ ⟨true, ["f"]⟩ = some [49]
  ∧ Fs.readFile ⟨[(⟨true, ["f"]⟩, Entry.file [])]⟩ ⟨true, ["f"]⟩ = some [] :=
  ⟨rfl, rfl, rfl⟩

/-- C2 (amended): for every path, `touch` first ensures the parent
directories of the path exist (creating them if needed) and then creates an
**empty** file at the path, truncating an already-existing regular file
rather than leaving its content in place; on I/O failure it returns a typed
error (kind `CreateDir` or `WriteFile`) rather than panicking. -/
theorem touch_spec (fs : Fs) (p : RPath) :
    (∀ fs', touch fs p = .ok fs' →
      fs'.readFile p = some []
      ∧ ∀ par, p.parent = some par →
          fs'.IsDirAt par ∧ ∀ q ∈ par.ancestors, fs'.lookup q = some Entry.dir)
  ∧ (∀ e, touch fs p = .error e → e.kind = .CreateDir ∨ e.kind = .WriteFile) :=
  ⟨fun _ h => ⟨touch_ok_read h, touch_ok_parent h⟩, fun _ h => touch_error_kind h⟩

/-- C2 witness: touching `/d/f` in an empty filesystem creates the
directory `/d` and an empty file; touching below an existing file fails
with a typed `CreateDir` error. -/
theorem touch_spec_witness :
    Fs.readFile ⟨[(⟨true, ["d"]⟩, Entry.dir), (⟨true, ["d", "f"]⟩, Entry.file [])]⟩
      ⟨true, ["d", "f"]⟩ = some []
  ∧ ((⟨.CreateDir⟩ : FixtureError).kind = .CreateDir
      ∨ (⟨.CreateDir⟩ : FixtureError).kind = .WriteFile) :=
  ⟨((touch_spec ⟨[]⟩ ⟨true, ["d", "f"]⟩).1
      ⟨[(⟨true, ["d"]⟩, Entry.dir), (⟨true, ["d", "f"]⟩, Entry.file [])]⟩ rfl).1,
   (touch_spec ⟨[(⟨true, ["p"]⟩, Entry.file [])]⟩ ⟨true, ["p", "f"]⟩).2
      ⟨.CreateDir⟩ rfl⟩

/-- C4: the three Rust string shapes all convert to the same
read-decode-diff predicate; evaluation reads the path's bytes and decodes
them as UTF-8, a decode failure evaluating to `false` rather than crashing,
so a text assertion against invalid-UTF-8 content fails through the
intended assertion panic (carrying the decode-failure case). -/
theorem text_conversion_spec (s : Str) (fs : Fs) (p : RPath) :
    intoPathOfString s = StrContentPathPredicate.new s
  ∧ intoPathOfStrRef s = StrContentPathPredicate.new s
  ∧ intoPathOfStringRef s = StrContentPathPredicate.new s
  ∧ (Shorthand.intoPath (.text s)).eval fs p =
      (match fs.readFile p with
       | some bs => if Utf8Valid bs then decide (bs = s) else false
       | none => false)
  ∧ (∀ bs, fs.readFile p = some bs → Utf8Valid bs = false →
      (Shorthand.intoPath (.text s)).eval fs p = false
      ∧ assert fs p (.text s) = .error ⟨CaseTree.utf8Error, p⟩) := by
  refine ⟨rfl, rfl, rfl, ?_, ?_⟩
  · rcases h : fs.readFile p with _ | bs <;>
      simp [Shorthand.intoPath, intoPathOfString, StrContentPathPredicate.new,
        fileContentPred, utf8Pred, diffPred, h]
  · intro bs hbs hval
    constructor
    · simp [Shorthand.intoPath, intoPathOfString, StrContentPathPredicate.new,
        fileContentPred, utf8Pred, hbs, hval]
    · simp [AssertFs.assert, Shorthand.intoPath, intoPathOfString,
        StrContentPathPredicate.new, fileContentPred, utf8Pred, hbs, hval]

/-- C4 witness: a file containing the invalid UTF-8 byte `0xFF` makes the
text assertion evaluate false and abort with the decode-failure case. -/
theorem text_conversion_spec_witness :
    Fs.readFile ⟨[(⟨true, ["x"]⟩, Entry.file [255])]⟩ ⟨true, ["x"]⟩ = some [255]
  ∧ Utf8Valid [255] = false
  ∧ ((Shorthand.intoPath (.text [104])).eval
        ⟨[(⟨true, ["x"]⟩, Entry.file [255])]⟩ ⟨true, ["x"]⟩ = false
    ∧ assert ⟨[(⟨true, ["x"]⟩, Entry.file [255])]⟩ ⟨true, ["x"]⟩ (.text [104])
        = .error ⟨CaseTree.utf8Error, ⟨true, ["x"]⟩⟩) :=
  ⟨rfl, rfl,
   (text_conversion_spec [104] ⟨[(⟨true, ["x"]⟩, Entry.file [255])]⟩
      ⟨true, ["x"]⟩).2.2.2.2 [255] rfl rfl⟩

/-- C5: conversion of bytes produces the exact-equality-on-content
predicate; after writing bytes `b`, asserting `b` succeeds and asserting
any `b' ≠ b` aborts with an explanation carrying both the expected bytes
`b'` and the actual content `b`. -/
theorem bytes_roundtrip_spec (b b' : List Nat) (fs fs' : Fs) (p : RPath)
    (hw : write_binary fs p b = .ok fs') (hne : b' ≠ b) :
    Shorthand.intoPath (.bytes b) = BytesContentPathPredicate.new b
  ∧ fs'.readFile p = some b
  ∧ (Shorthand.intoPath (.bytes b)).eval fs' p = true
  ∧ assert fs' p (.bytes b) = .ok ()
  ∧ assert fs' p (.bytes b') = .error ⟨CaseTree.eqBytes b' b, p⟩ := by
  have hr : fs'.readFile p = some b := write_binary_ok hw
  refine ⟨rfl, hr, ?_, ?_, ?_⟩
  · simp [Shorthand.intoPath, intoPathOfBytes, BytesContentPathPredicate.new,
      fileContentPred, eqBytesPred, hr]
  · simp [AssertFs.assert, Shorthand.intoPath, intoPathOfBytes,
      BytesContentPathPredicate.new, fileContentPred, eqBytesPred, hr]
  · have hd : (decide (b = b')) = false := by
      simp
      exact fun hh => hne hh.symm
    simp [AssertFs.assert, Shorthand.intoPath, intoPathOfBytes,
      BytesContentPathPredicate.new, fileContentPred, eqBytesPred, hr, hd]

/-- C5 witness: write `[1]`, assert `[1]` passes, assert `[2]` aborts with
both contents in the explanation. -/
theorem bytes_roundtrip_spec_witness :
    write_binary (⟨[]⟩ : Fs) ⟨true, ["f"]⟩ [1]
      = .ok ⟨[(⟨true, ["f"]⟩, Entry.file [1])]⟩
  ∧ ([2] : List Nat) ≠ [1]
  ∧ (Shorthand.intoPath (.bytes [1]) = BytesContentPathPredicate.new [1]
    ∧ Fs.readFile ⟨[(⟨true, ["f"]⟩, Entry.file [1])]⟩ ⟨true, ["f"]⟩ = some [1]
    ∧ (Shorthand.intoPath (.bytes [1])).eval
        ⟨[(⟨true, ["f"]⟩, Entry.file [1])]⟩ ⟨true, ["f"]⟩ = true
    ∧ assert ⟨[(⟨true, ["f"]⟩, Entry.file [1])]⟩ ⟨true, ["f"]⟩ (.bytes [1])
        = .ok ()
    ∧ assert ⟨[(⟨true, ["f"]⟩, Entry.file [1])]⟩ ⟨true, ["f"]⟩ (.bytes [2])
        = .error ⟨CaseTree.eqBytes [2] [1], ⟨true, ["f"]⟩⟩) :=
  ⟨rfl, by decide,
   bytes_roundtrip_spec [1] [2] ⟨[]⟩ ⟨[(⟨true, ["f"]⟩, Entry.file [1])]⟩
     ⟨true, ["f"]⟩ rfl (by decide)⟩

/-- C6: persisting is one-way — `into_persistent` on a persisted sandbox is
a no-op and `into_persistent_if false` returns the sandbox unchanged; after
persisting, the destructor deletes nothing and `close` trivially succeeds
without touching the filesystem; `close` on a transient sandbox surfaces a
deletion failure as an error of kind `Cleanup`. -/
theorem persist_one_way_spec (t : TempDir) (fs : Fs) :
    (∀ p, t.temp = .persisted p → t.into_persistent = t)
  ∧ t.into_persistent_if false = t
  ∧ TempDir.dropRun t.into_persistent fs = fs
  ∧ t.into_persistent.close fs = .ok fs
  ∧ (∀ p, t.temp = .temp p → fs.removeDirAll p = none →
      t.close fs = .error ⟨.Cleanup⟩)
  ∧ (∀ e, t.close fs = .error e → e.kind = .Cleanup) := by
  obtain ⟨ti⟩ := t
  cases ti with
  | temp p0 =>
    refine ⟨?_, rfl, rfl, rfl, ?_, ?_⟩
    · intro p hp
      exact TempDirInner.noConfusion hp
    · intro p hp hrm
      injection hp with h2
      subst h2
      rw [TempDir.close_temp, hrm]
    · intro e he
      rw [TempDir.close_temp] at he
      cases hrm : fs.removeDirAll p0 with
      | some f => rw [hrm] at he; exact Except.noConfusion he
      | none =>
        rw [hrm] at he
        injection he with h3
        rw [← h3]
  | persisted p0 =>
    refine ⟨fun p hp => rfl, rfl, rfl, TempDir.close_persisted p0 fs, ?_, ?_⟩
    · intro p hp
      exact TempDirInner.noConfusion hp
    · intro e he
      rw [TempDir.close_persisted] at he
      exact Except.noConfusion he

/-- C6 witness: concrete persisted and transient sandboxes over an empty
filesystem (where removal of a missing directory fails). -/
theorem persist_one_way_spec_witness :
    TempDir.into_persistent ⟨.persisted ⟨true, ["t"]⟩⟩ = ⟨.persisted ⟨true, ["t"]⟩⟩
  ∧ TempDir.close ⟨.temp ⟨true, ["t"]⟩⟩ ⟨[]⟩ = .error ⟨.Cleanup⟩
  ∧ (⟨.Cleanup⟩ : FixtureError).kind = .Cleanup :=
  ⟨(persist_one_way_spec ⟨.persisted ⟨true, ["t"]⟩⟩ ⟨[]⟩).1 ⟨true, ["t"]⟩ rfl,
   (persist_one_way_spec ⟨.temp ⟨true, ["t"]⟩⟩ ⟨[]⟩).2.2.2.2.1 ⟨true, ["t"]⟩
     rfl rfl,
   (persist_one_way_spec ⟨.temp ⟨true, ["t"]⟩⟩ ⟨[]⟩).2.2.2.2.2 ⟨.Cleanup⟩ rfl⟩

/-- C7 counterexample: when an intermediate component exists as a file,
`existing_child` fails with error kind `CreateDir`, not `WriteFile` as
claimed. -/
theorem existing_child_kind_counterexample :
    ChildPath.existing_child ⟨⟨true, ["base"]⟩⟩ ⟨false, ["sub", "foo.txt"]⟩
      ⟨[(⟨true, ["base"]⟩, Entry.dir), (⟨true, ["base", "sub"]⟩, Entry.file [])]⟩
      = .error ⟨.CreateDir⟩
  ∧ (⟨.CreateDir⟩ : FixtureError).kind ≠ .WriteFile :=
  ⟨rfl, by decide⟩

/-- C7 (amended): `existing_child` joins the relative path against the base
and touches the result, so on success the returned `ChildPath` is the join
and exists on disk as an (empty) file with its parent directories created;
on failure it returns an error of kind `WriteFile` or `CreateDir` (the
latter when intermediate directory creation fails). -/
theorem existing_child_spec (t : TempDir) (c : ChildPath) (rel : RPath)
    (fs : Fs) :
    (∀ fs' ch, c.existing_child rel fs = .ok (fs', ch) →
      ch.path = c.path.join rel
      ∧ fs'.readFile ch.path = some []
      ∧ ∀ par, ch.path.parent = some par → fs'.IsDirAt par)
  ∧ (∀ e, c.existing_child rel fs = .error e →
      e.kind = .WriteFile ∨ e.kind = .CreateDir)
  ∧ (∀ fs' ch, t.existing_child rel fs = .ok (fs', ch) →
      ch.path = t.path.join rel
      ∧ fs'.readFile ch.path = some []
      ∧ ∀ par, ch.path.parent = some par → fs'.IsDirAt par)
  ∧ (∀ e, t.existing_child rel fs = .error e →
      e.kind = .WriteFile ∨ e.kind = .CreateDir) := by
  refine ⟨fun fs' ch h => ?_, fun e h => ?_, fun fs' ch h => ?_, fun e h => ?_⟩
  · unfold ChildPath.existing_child at h
    cases ht : touch fs (c.child rel).path with
    | error e0 => rw [ht] at h; cases h
    | ok f =>
      rw [ht] at h
      cases h
      exact ⟨rfl, touch_ok_read ht, fun par hp => (touch_ok_parent ht par hp).1⟩
  · unfold ChildPath.existing_child at h
    cases ht : touch fs (c.child rel).path with
    | error e0 =>
      rw [ht] at h
      cases h
      exact (touch_error_kind ht).symm
    | ok f => rw [ht] at h; cases h
  · unfold TempDir.existing_child at h
    cases ht : touch fs (t.child rel).path with
    | error e0 => rw [ht] at h; cases h
    | ok f =>
      rw [ht] at h
      cases h
      exact ⟨rfl, touch_ok_read ht, fun par hp => (touch_ok_parent ht par hp).1⟩
  · unfold TempDir.existing_child at h
    cases ht : touch fs (t.child rel).path with
    | error e0 =>
      rw [ht] at h
      cases h
      exact (touch_error_kind ht).symm
    | ok f => rw [ht] at h; cases h

/-- C7 witness: `existing_child("sub/foo.txt")` under `/base` creates both
`sub/` and `foo.txt`, and the failure case above yields `CreateDir`. -/
theorem existing_child_spec_witness :
    Fs.readFile
      ⟨[(⟨true, ["base"]⟩, Entry.dir),
        (⟨true, ["base", "sub"]⟩, Entry.dir),
        (⟨true, ["base", "sub", "foo.txt"]⟩, Entry.file [])]⟩
      ⟨true, ["base", "sub", "foo.txt"]⟩ = some []
  ∧ ((⟨.CreateDir⟩ : FixtureError).kind = .WriteFile
      ∨ (⟨.CreateDir⟩ : FixtureError).kind = .CreateDir) :=
  ⟨(((existing_child_spec ⟨.temp ⟨true, ["base"]⟩⟩ ⟨⟨true, ["base"]⟩⟩
        ⟨false, ["sub", "foo.txt"]⟩ ⟨[(⟨true, ["base"]⟩, Entry.dir)]⟩).1
      ⟨[(⟨true, ["base"]⟩, Entry.dir),
        (⟨true, ["base", "sub"]⟩, Entry.dir),
        (⟨true, ["base", "sub", "foo.txt"]⟩, Entry.file [])]⟩
      ⟨⟨true, ["base", "sub", "foo.txt"]⟩⟩ rfl).2.1),
   ((existing_child_spec ⟨.temp ⟨true, ["base"]⟩⟩ ⟨⟨true, ["base"]⟩⟩
        ⟨false, ["sub", "foo.txt"]⟩
        ⟨[(⟨true, ["base"]⟩, Entry.dir),
          (⟨true, ["base", "sub"]⟩, Entry.file [])]⟩).2.1 ⟨.CreateDir⟩ rfl)⟩

/-! ## Path prefix algebra -/

theorem RPath.prefixOf_iff {q p : RPath} :
    q.prefixOf p = true ↔
      q.absolute = p.absolute ∧ q.components <+: p.components := by
  unfold RPath.prefixOf
  rw [Bool.and_eq_true, beq_iff_eq, List.isPrefixOf_iff_prefix]

theorem RPath.prefixOf_refl (p : RPath) : p.prefixOf p = true :=
  RPath.prefixOf_iff.mpr ⟨rfl, List.prefix_refl _⟩

theorem RPath.prefixOf_trans {a b c : RPath} (h1 : a.prefixOf b = true)
    (h2 : b.prefixOf c = true) : a.prefixOf c = true := by
  obtain ⟨ha, hp⟩ := RPath.prefixOf_iff.mp h1
  obtain ⟨hb, hq⟩ := RPath.prefixOf_iff.mp h2
  exact RPath.prefixOf_iff.mpr ⟨ha.trans hb, hp.trans hq⟩

theorem RPath.prefixOf_total {a b c : RPath} (h1 : a.prefixOf c = true)
    (h2 : b.prefixOf c = true) :
    a.prefixOf b = true ∨ b.prefixOf a = true := by
  obtain ⟨ha, hp⟩ := RPath.prefixOf_iff.mp h1
  obtain ⟨hb, hq⟩ := RPath.prefixOf_iff.mp h2
  rcases List.prefix_or_prefix_of_prefix hp hq with h | h
  · exact Or.inl (RPath.prefixOf_iff.mpr ⟨ha.trans hb.symm, h⟩)
  · exact Or.inr (RPath.prefixOf_iff.mpr ⟨hb.trans ha.symm, h⟩)

theorem RPath.prefixOf_extend (p : RPath) (rel : List String) :
    p.prefixOf (p.extend rel) = true :=
  RPath.prefixOf_iff.mpr ⟨rfl, List.prefix_append _ _⟩

theorem RPath.strictPrefixOf_false_of_prefixOf_false {q p : RPath}
    (h : q.prefixOf p = false) : q.strictPrefixOf p = false := by
  unfold RPath.strictPrefixOf
  rw [h, Bool.false_and]

theorem RPath.extend_inj {t : RPath} {a b : List String}
    (h : t.extend a = t.extend b) : a = b := by
  unfold RPath.extend at h
  have h2 : t.components ++ a = t.components ++ b := congrArg RPath.components h
  exact List.append_cancel_left h2

theorem RPath.mem_ancestors_prefixOf {q p : RPath} (h : q ∈ p.ancestors) :
    q.prefixOf p = true := by
  obtain ⟨i, hi, rfl⟩ := RPath.mem_ancestors.mp h
  exact RPath.prefixOf_iff.mpr ⟨rfl, List.take_prefix _ _⟩

theorem RPath.ne_of_length_lt {q p : RPath}
    (h : q.components.length < p.components.length) : q ≠ p := by
  intro hqp
  rw [hqp] at h
  omega

theorem RPath.eq_extend_of_strictPrefixOf {src q : RPath}
    (h : src.strictPrefixOf q = true) :
    q = src.extend (q.components.drop src.components.length) := by
  unfold RPath.strictPrefixOf at h
  rw [Bool.and_eq_true] at h
  obtain ⟨habs, hp⟩ := RPath.prefixOf_iff.mp h.1
  obtain ⟨t, ht⟩ := hp
  obtain ⟨a, cs⟩ := q
  simp only at habs ht ⊢
  unfold RPath.extend
  simp only [habs]
  rw [← ht, List.drop_left]

theorem RPath.safe_mod {source target d q : RPath}
    (h1 : source.prefixOf target = false) (h2 : target.prefixOf source = false)
    (hd : target.prefixOf d = true) (hq : q.prefixOf d = true) :
    source.prefixOf q = false := by
  cases hc : source.prefixOf q with
  | false => rfl
  | true =>
    exfalso
    have hsd := RPath.prefixOf_trans hc hq
    rcases RPath.prefixOf_total hsd hd with h | h
    · rw [h] at h1; cases h1
    · rw [h] at h2; cases h2

theorem RPath.ancestors_dropLast_subset {d : RPath} {q : RPath}
    (h : q ∈ (RPath.mk d.absolute d.components.dropLast).ancestors) :
    q ∈ d.ancestors := by
  obtain ⟨i, hi, rfl⟩ := RPath.mem_ancestors.mp h
  simp only [List.length_dropLast] at hi
  rw [RPath.mem_ancestors]
  refine ⟨i, by omega, ?_⟩
  simp only
  congr 1
  rw [List.dropLast_eq_take, List.take_take]
  congr 1
  omega

/-! ## Walk lemmas -/

theorem walkEntries_insertList (l : List (RPath × Entry)) (q : RPath)
    (e : Entry) {src : RPath} (hq : src.strictPrefixOf q = false)
    (pats : List String) :
    walkEntries (insertList l q e) src pats = walkEntries l src pats := by
  induction l with
  | nil => simp [insertList, walkEntries, List.filterMap, walkFun, hq]
  | cons hd tl ih =>
    obtain ⟨k, v⟩ := hd
    by_cases hk : k = q
    · subst hk
      simp [insertList, walkEntries, List.filterMap_cons, walkFun, hq]
    · simp only [insertList, if_neg hk, walkEntries, List.filterMap_cons]
      cases walkFun src pats (k, v) with
      | none => exact ih
      | some b =>
        unfold walkEntries at ih
        rw [ih]

theorem mkdirChain_walk {qs : List RPath} {fs fs' : Fs} {src : RPath}
    (h : mkdirChain fs qs = some fs')
    (hqs : ∀ q ∈ qs, src.strictPrefixOf q = false) (pats : List String) :
    walkEntries fs'.entries src pats = walkEntries fs.entries src pats := by
  induction qs generalizing fs with
  | nil => unfold mkdirChain at h; cases h; rfl
  | cons q0 qs ih =>
    unfold mkdirChain at h
    cases hl : fs.lookup q0 with
    | none =>
      rw [hl] at h
      rw [ih h fun q hq => hqs q (List.mem_cons_of_mem q0 hq)]
      exact walkEntries_insertList fs.entries q0 Entry.dir
        (hqs q0 (List.mem_cons_self q0 qs)) pats
    | some e0 =>
      rw [hl] at h
      cases e0 with
      | dir => exact ih h fun q hq => hqs q (List.mem_cons_of_mem q0 hq)
      | file c => cases h
      | special => cases h

theorem walkFun_some {src : RPath} {pats : List String} {qe : RPath × Entry}
    {e : List String × Entry} (h : walkFun src pats qe = some e) :
    src.strictPrefixOf qe.1 = true
  ∧ e.1 = qe.1.components.drop src.components.length
  ∧ e.2 = qe.2
  ∧ qe.1 = src.extend e.1 := by
  unfold walkFun at h
  split at h
  · split at h
    · cases h
      rename_i hs hp
      exact ⟨hs, rfl, rfl, RPath.eq_extend_of_strictPrefixOf hs⟩
    · cases h
  · cases h

theorem walkEntries_mem {l : List (RPath × Entry)} {src : RPath}
    {pats : List String} {e : List String × Entry}
    (he : e ∈ walkEntries l src pats) :
    ∃ qe ∈ l, walkFun src pats qe = some e := by
  unfold walkEntries at he
  obtain ⟨qe, hmem, hqe⟩ := List.mem_filterMap.mp he
  exact ⟨qe, hmem, hqe⟩

theorem walkEntries_rel_ne_nil {l : List (RPath × Entry)} {src : RPath}
    {pats : List String} {e : List String × Entry}
    (he : e ∈ walkEntries l src pats) : e.1 ≠ [] := by
  obtain ⟨qe, _, hqe⟩ := walkEntries_mem he
  obtain ⟨hs, hrel, -, -⟩ := walkFun_some hqe
  unfold RPath.strictPrefixOf at hs
  rw [Bool.and_eq_true, decide_eq_true_eq] at hs
  rw [hrel]
  intro hnil
  have := congrArg List.length hnil
  rw [List.length_drop] at this
  simp at this
  omega

theorem walkEntries_map_fst (l : List (RPath × Entry)) (src : RPath)
    (pats : List String) :
    (walkEntries l src pats).map Prod.fst
      = (l.map Prod.fst).filterMap (walkRelOf src pats) := by
  induction l with
  | nil => rfl
  | cons hd tl ih =>
    obtain ⟨k, v⟩ := hd
    simp only [walkEntries, List.filterMap_cons, List.map_cons]
    have hk : (walkRelOf src pats k) = (walkFun src pats (k, v)).map Prod.fst := by
      unfold walkRelOf walkFun
      split
      · split <;> rfl
      · rfl
    cases hw : walkFun src pats (k, v) with
    | none =>
      rw [hw] at hk
      unfold walkEntries at ih
      simp [hk, ih]
    | some b =>
      rw [hw] at hk
      unfold walkEntries at ih
      simp [hk, ih]

theorem walkRelOf_some {src : RPath} {pats : List String} {q : RPath}
    {rel : List String} (h : walkRelOf src pats q = some rel) :
    q = src.extend rel := by
  unfold walkRelOf at h
  split at h
  · split at h
    · cases h
      rename_i hs hp
      exact RPath.eq_extend_of_strictPrefixOf hs
    · cases h
  · cases h

theorem walkEntries_rels_nodup {l : List (RPath × Entry)} {src : RPath}
    {pats : List String} (h : (l.map Prod.fst).Nodup) :
    ((walkEntries l src pats).map Prod.fst).Nodup := by
  rw [walkEntries_map_fst]
  refine List.Nodup.filterMap ?_ h
  intro a a' b hb hb'
  have ha := walkRelOf_some (Option.mem_def.mp hb)
  have ha' := walkRelOf_some (Option.mem_def.mp hb')
  rw [ha, ha']

/-! ## Copy-step lemmas -/

theorem Fs.readFile_congr {fs fs' : Fs} {p : RPath}
    (h : fs'.lookup p = fs.lookup p) : fs'.readFile p = fs.readFile p := by
  unfold Fs.readFile
  rw [h]

theorem Fs.fileCreate_some_not_dir {fs f : Fs} {p : RPath}
    (h : fs.fileCreate p = some f) : fs.lookup p ≠ some Entry.dir := by
  unfold Fs.fileCreate at h
  split at h
  · cases h
  · split at h
    · split at h
      · cases h
      · cases h
      · rename_i x hx1 hx2
        intro hl
        exact hx1 hl
    · cases h

theorem fsCopy_some {fs fs' : Fs} {s d : RPath} (h : fsCopy fs s d = some fs') :
    ∃ c, fs.readFile s = some c ∧ fs.lookup d ≠ some Entry.dir
      ∧ fs' = fs.insert d (Entry.file c) := by
  unfold fsCopy at h
  split at h
  · rename_i c hread
    split at h
    · rename_i f hfc
      cases h
      refine ⟨c, hread, Fs.fileCreate_some_not_dir hfc, ?_⟩
      rw [Fs.fileCreate_some hfc, Fs.insert_insert]
    · cases h
  · cases h

theorem RPath.parent_of_ne_nil {p : RPath} (h : p.components ≠ []) :
    p.parent = some ⟨p.absolute, p.components.dropLast⟩ := by
  obtain ⟨a, cs⟩ := p
  cases cs with
  | nil => simp at h
  | cons c cs' => rfl

theorem copyEntryStep_dir (target src : RPath) (acc : Fs)
    (rel : List String) :
    copyEntryStep target src acc (rel, Entry.dir) =
      (match acc.createDirAll (target.extend rel) with
       | some fs' => .ok fs'
       | none => .error ⟨.CreateDir⟩) := rfl

theorem copyEntryStep_file (target src : RPath) (acc : Fs)
    (rel : List String) (c0 : List Nat) :
    copyEntryStep target src acc (rel, Entry.file c0) =
      (match acc.createDirAll ⟨(target.extend rel).absolute,
          (target.extend rel).components.dropLast⟩ with
       | some fs1 =>
         match fsCopy fs1 (src.extend rel) (target.extend rel) with
         | some fs2 => .ok fs2
         | none => .error ⟨.CopyFile⟩
       | none => .error ⟨.CreateDir⟩) := rfl

theorem copyEntryStep_special (target src : RPath) (acc : Fs)
    (rel : List String) :
    copyEntryStep target src acc (rel, Entry.special) = .ok acc := rfl

theorem copyEntryStep_ok {target src : RPath} {acc acc' fs0 : Fs}
    {rel : List String} {ent : Entry} (pats : List String)
    (h1 : src.prefixOf target = false) (h2 : target.prefixOf src = false)
    (hrel : rel ≠ [])
    (hagr : ∀ r, src.prefixOf r = true → acc.lookup r = fs0.lookup r)
    (hstep : copyEntryStep target src acc (rel, ent) = .ok acc') :
    (∀ r, src.prefixOf r = true → acc'.lookup r = acc.lookup r)
  ∧ walkEntries acc'.entries src pats = walkEntries acc.entries src pats
  ∧ (∀ q, acc.lookup q = some Entry.dir → acc'.lookup q = some Entry.dir)
  ∧ (∀ q c, q ≠ target.extend rel → acc.lookup q = some (Entry.file c) →
      acc'.lookup q = some (Entry.file c))
  ∧ entryDone fs0 acc' target src (rel, ent) := by
  have hdne : (target.extend rel).components ≠ [] := by
    unfold RPath.extend
    simp [hrel]
  have hsafe : ∀ q ∈ (target.extend rel).ancestors, src.prefixOf q = false :=
    fun q hq => RPath.safe_mod h1 h2 (RPath.prefixOf_extend target rel)
      (RPath.mem_ancestors_prefixOf hq)
  have hstrict : ∀ q ∈ (target.extend rel).ancestors,
      src.strictPrefixOf q = false :=
    fun q hq => RPath.strictPrefixOf_false_of_prefixOf_false (hsafe q hq)
  have hner : ∀ q ∈ (target.extend rel).ancestors, ∀ r,
      src.prefixOf r = true → q ≠ r := by
    intro q hq r hr hqr
    subst hqr
    have := hsafe q hq
    rw [hr] at this
    cases this
  cases ent with
  | special =>
    rw [copyEntryStep_special] at hstep
    cases hstep
    exact ⟨fun r _ => rfl, rfl, fun q h => h, fun q c _ h => h, trivial⟩
  | dir =>
    rw [copyEntryStep_dir] at hstep
    split at hstep
    · rename_i f hcd
      cases hstep
      refine ⟨fun r hr => mkdirChain_outside hcd r (fun q hq => hner q hq r hr),
        mkdirChain_walk hcd hstrict pats,
        fun q h => mkdirChain_extends hcd q Entry.dir h,
        fun q c _ h => mkdirChain_extends hcd q (Entry.file c) h,
        ?_⟩
      simp only [entryDone]
      exact fun q hq => mkdirChain_dirs hcd q hq
    · cases hstep
  | file c0 =>
    rw [copyEntryStep_file] at hstep
    split at hstep
    · rename_i fs1 hcd
      split at hstep
      · rename_i fs2 hcp
        cases hstep
        obtain ⟨c, hread, hnotdir, hfs2⟩ := fsCopy_some hcp
        subst hfs2
        have hsubanc : ∀ q ∈ (RPath.mk (target.extend rel).absolute
            (target.extend rel).components.dropLast).ancestors,
            q ∈ (target.extend rel).ancestors :=
          fun q hq => RPath.ancestors_dropLast_subset hq
        have hdmem := RPath.self_mem_ancestors hdne
        have hdstrict := RPath.strictPrefixOf_false_of_prefixOf_false
          (hsafe _ hdmem)
        refine ⟨?_, ?_, ?_, ?_, ?_⟩
        · intro r hr
          have hq1 : fs1.lookup r = acc.lookup r :=
            mkdirChain_outside hcd r (fun q hq => hner q (hsubanc q hq) r hr)
          rw [Fs.lookup_insert_ne fs1 _ r (Entry.file c)
            (hner _ hdmem r hr)]
          exact hq1
        · calc walkEntries (fs1.insert (target.extend rel)
                (Entry.file c)).entries src pats
              = walkEntries fs1.entries src pats :=
                walkEntries_insertList fs1.entries _ (Entry.file c)
                  hdstrict pats
            _ = walkEntries acc.entries src pats :=
                mkdirChain_walk hcd (fun q hq => hstrict q (hsubanc q hq)) pats
        · intro q h
          have h1' := mkdirChain_extends hcd q Entry.dir h
          have hqd : q ≠ target.extend rel := by
            intro hqd
            exact hnotdir (hqd ▸ h1')
          rw [Fs.lookup_insert_ne fs1 _ q (Entry.file c) (Ne.symm hqd)]
          exact h1'
        · intro q c' hq h
          have h1' := mkdirChain_extends hcd q (Entry.file c') h
          rw [Fs.lookup_insert_ne fs1 _ q (Entry.file c) (Ne.symm hq)]
          exact h1'
        · simp only [entryDone]
          constructor
          · intro q hq
            have h1' := mkdirChain_dirs hcd q hq
            have hlen : q.components.length
                < (target.extend rel).components.length := by
              have hle := RPath.mem_ancestors_length hq
              simp only [List.length_dropLast] at hle
              have h1le : 1 ≤ (target.extend rel).components.length := by
                cases hcs : (target.extend rel).components with
                | nil => exact absurd hcs hdne
                | cons a l => simp
              omega
            rw [Fs.lookup_insert_ne fs1 _ q (Entry.file c)
              (Ne.symm (RPath.ne_of_length_lt hlen))]
            exact h1'
          · refine ⟨c, ?_, Fs.lookup_insert_self fs1 _ (Entry.file c)⟩
            have hsp : src.prefixOf (src.extend rel) = true :=
              RPath.prefixOf_extend src rel
            have hlk : fs1.lookup (src.extend rel)
                = acc.lookup (src.extend rel) :=
              mkdirChain_outside hcd _ (fun q hq => hner q (hsubanc q hq) _ hsp)
            have hlk2 := hagr _ hsp
            rw [← Fs.readFile_congr (hlk.trans hlk2)]
            exact hread
      · cases hstep
    · cases hstep

theorem entryDone_preserved {fs0 acc acc' : Fs} {target src : RPath}
    {rel : List String} {ent : Entry}
    (hdir : ∀ q, acc.lookup q = some Entry.dir → acc'.lookup q = some Entry.dir)
    (hfile : ∀ c, acc.lookup (target.extend rel) = some (Entry.file c) →
        acc'.lookup (target.extend rel) = some (Entry.file c))
    (h : entryDone fs0 acc target src (rel, ent)) :
    entryDone fs0 acc' target src (rel, ent) := by
  cases ent with
  | dir =>
    simp only [entryDone] at h ⊢
    exact fun q hq => hdir q (h q hq)
  | file c0 =>
    simp only [entryDone] at h ⊢
    obtain ⟨hd, c, hc0, hc⟩ := h
    exact ⟨fun q hq => hdir q (hd q hq), c, hc0, hfile c hc⟩
  | special => trivial

theorem copyLoop_ok_invariant {target src : RPath} (pats : List String)
    {fs0 : Fs}
    (h1 : src.prefixOf target = false) (h2 : target.prefixOf src = false) :
    ∀ (es : List (List String × Entry)) (acc fs' : Fs),
      copyLoop target src acc es = .ok fs' →
      (∀ r, src.prefixOf r = true → acc.lookup r = fs0.lookup r) →
      (∀ e ∈ es, e.1 ≠ []) →
      (es.map Prod.fst).Nodup →
      (∀ r, src.prefixOf r = true → fs'.lookup r = fs0.lookup r)
      ∧ walkEntries fs'.entries src pats = walkEntries acc.entries src pats
      ∧ (∀ e ∈ es, entryDone fs0 fs' target src e)
      ∧ (∀ q, acc.lookup q = some Entry.dir → fs'.lookup q = some Entry.dir)
      ∧ (∀ q c, (∀ e ∈ es, q ≠ target.extend e.1) →
          acc.lookup q = some (Entry.file c) →
          fs'.lookup q = some (Entry.file c)) := by
  intro es
  induction es with
  | nil =>
    intro acc fs' hloop hagr _ _
    unfold copyLoop at hloop
    cases hloop
    exact ⟨hagr, rfl, fun e he => absurd he (List.not_mem_nil e),
      fun q h => h, fun q c _ h => h⟩
  | cons e es ih =>
    intro acc fs' hloop hagr hnil hnodup
    obtain ⟨rel, ent⟩ := e
    unfold copyLoop at hloop
    cases hstep : copyEntryStep target src acc (rel, ent) with
    | error err => rw [hstep] at hloop; cases hloop
    | ok acc1 =>
      rw [hstep] at hloop
      have hrel : rel ≠ [] := hnil (rel, ent) (List.mem_cons_self _ _)
      obtain ⟨sagr, swalk, sdir, sfile, sdone⟩ :=
        copyEntryStep_ok pats h1 h2 hrel hagr hstep
      have hagr1 : ∀ r, src.prefixOf r = true → acc1.lookup r = fs0.lookup r :=
        fun r hr => (sagr r hr).trans (hagr r hr)
      have hnodup2 : (rel :: es.map Prod.fst).Nodup := by
        simp only [List.map_cons] at hnodup
        exact hnodup
      have hnodup' := List.nodup_cons.mp hnodup2
      obtain ⟨iagr, iwalk, idone, idir, ifile⟩ :=
        ih acc1 fs' hloop hagr1
          (fun e' he' => hnil e' (List.mem_cons_of_mem _ he'))
          hnodup'.2
      have hheadne : ∀ e' ∈ es, target.extend rel ≠ target.extend e'.1 := by
        intro e' he' hcontra
        exact hnodup'.1 (RPath.extend_inj hcontra ▸ List.mem_map_of_mem Prod.fst he')
      refine ⟨iagr, iwalk.trans swalk, ?_,
        fun q h => idir q (sdir q h),
        fun q c hq h => ifile q c
          (fun e' he' => hq e' (List.mem_cons_of_mem _ he'))
          (sfile q c (hq (rel, ent) (List.mem_cons_self _ _)) h)⟩
      intro e' he'
      rcases List.mem_cons.mp he' with rfl | he2
      · exact entryDone_preserved idir
          (fun c hc => ifile _ c hheadne hc) sdone
      · exact idone e' he2

theorem Fs.fileCreate_eq_of_parent {fs : Fs} {p par : RPath}
    (hp : p.parent = some par) :
    fs.fileCreate p =
      (if fs.IsDirAt par then
        (match fs.lookup p with
         | some Entry.dir => none
         | some Entry.special => none
         | _ => some (fs.insert p (Entry.file [])))
      else none) := by
  unfold Fs.fileCreate
  rw [hp]

theorem fsCopy_eq {fs f : Fs} {s d : RPath} {c : List Nat}
    (hr : fs.readFile s = some c) (hc : fs.fileCreate d = some f) :
    fsCopy fs s d = some (f.insert d (Entry.file c)) := by
  unfold fsCopy
  rw [hr, hc]

theorem copyLoop_id {target src : RPath} {fs0 fs1 : Fs}
    (hagr : ∀ r, src.prefixOf r = true → fs1.lookup r = fs0.lookup r) :
    ∀ es, (∀ e ∈ es, e.1 ≠ [] ∧ entryDone fs0 fs1 target src e) →
      copyLoop target src fs1 es = .ok fs1 := by
  intro es
  induction es with
  | nil => intro _; rfl
  | cons e es ih =>
    intro h
    obtain ⟨rel, ent⟩ := e
    obtain ⟨hrel, hdone⟩ := h (rel, ent) (List.mem_cons_self _ _)
    have hdne : (target.extend rel).components ≠ [] := by
      unfold RPath.extend
      simp [hrel]
    have hstep : copyEntryStep target src fs1 (rel, ent) = .ok fs1 := by
      cases ent with
      | special => exact copyEntryStep_special target src fs1 rel
      | dir =>
        simp only [entryDone] at hdone
        rw [copyEntryStep_dir]
        rw [show Fs.createDirAll fs1 (target.extend rel) = some fs1 from
          mkdirChain_id hdone]
      | file c0 =>
        simp only [entryDone] at hdone
        obtain ⟨hpdirs, c, hc0, hcd1⟩ := hdone
        have hisdir : fs1.IsDirAt ⟨(target.extend rel).absolute,
            (target.extend rel).components.dropLast⟩ := by
          by_cases hpnil : ((target.extend rel).components.dropLast : List String) = []
          · exact Or.inl hpnil
          · exact Or.inr (hpdirs _ (RPath.self_mem_ancestors hpnil))
        have hread : fs1.readFile (src.extend rel) = some c := by
          rw [Fs.readFile_congr (hagr _ (RPath.prefixOf_extend src rel))]
          exact hc0
        have hfc : fs1.fileCreate (target.extend rel)
            = some (fs1.insert (target.extend rel) (Entry.file [])) := by
          rw [Fs.fileCreate_eq_of_parent (RPath.parent_of_ne_nil hdne),
            if_pos hisdir, hcd1]
        have hcopy : fsCopy fs1 (src.extend rel) (target.extend rel)
            = some fs1 := by
          rw [fsCopy_eq hread hfc]
          rw [Fs.insert_insert, Fs.insert_id fs1 _ (Entry.file c) hcd1]
        have e1 : Fs.createDirAll fs1 ⟨(target.extend rel).absolute,
            (target.extend rel).components.dropLast⟩ = some fs1 :=
          mkdirChain_id hpdirs
        rw [copyEntryStep_file]
        simp only [e1, hcopy]
    unfold copyLoop
    rw [hstep]
    exact ih fun e' he' => h e' (List.mem_cons_of_mem _ he')

theorem Fs.canonicalize_some {fs : Fs} {p q : RPath}
    (h : fs.canonicalize p = some q) : q = p ∧ fs.IsDirAt p := by
  unfold Fs.canonicalize at h
  split at h
  · cases h
    rename_i hd
    exact ⟨rfl, hd⟩
  · cases h

theorem copy_files_eq_some {fs : Fs} {target source src : RPath}
    {pats : List String} (h : fs.canonicalize source = some src) :
    copy_files fs target source pats
      = copyLoop target src fs (fs.walkMatching src pats) := by
  unfold copy_files
  rw [h]

theorem copy_files_eq_none {fs : Fs} {target source : RPath}
    {pats : List String} (h : fs.canonicalize source = none) :
    copy_files fs target source pats = .error ⟨.Walk⟩ := by
  unfold copy_files
  rw [h]

/-- C8: `copy_files` canonicalizes the source directory, walks it matching
the glob patterns, and for every matching entry re-creates directories or
copies files at the corresponding relative path under the target, silently
skipping entries that are neither plain files nor directories; with source
files `{a.rs, b.txt}` and pattern `*.rs` only `a.rs` appears in the target;
and a second run with the same source and patterns returns the very same
tree (idempotence). -/
theorem copy_files_spec (fs fs1 : Fs) (target source : RPath)
    (pats : List String)
    (hNodup : (fs.entries.map Prod.fst).Nodup)
    (h1 : source.prefixOf target = false)
    (h2 : target.prefixOf source = false)
    (hrun : copy_files fs target source pats = .ok fs1) :
    copy_files fs1 target source pats = .ok fs1
  ∧ (copy_files ⟨[(⟨true, ["s"]⟩, Entry.dir),
        (⟨true, ["s", "a.rs"]⟩, Entry.file [10]),
        (⟨true, ["s", "b.txt"]⟩, Entry.file [20])]⟩
        ⟨true, ["t"]⟩ ⟨true, ["s"]⟩ ["*.rs"]
      = .ok ⟨[(⟨true, ["s"]⟩, Entry.dir),
        (⟨true, ["s", "a.rs"]⟩, Entry.file [10]),
        (⟨true, ["s", "b.txt"]⟩, Entry.file [20]),
        (⟨true, ["t"]⟩, Entry.dir),
        (⟨true, ["t", "a.rs"]⟩, Entry.file [10])]⟩)
  ∧ Fs.readFile ⟨[(⟨true, ["s"]⟩, Entry.dir),
        (⟨true, ["s", "a.rs"]⟩, Entry.file [10]),
        (⟨true, ["s", "b.txt"]⟩, Entry.file [20]),
        (⟨true, ["t"]⟩, Entry.dir),
        (⟨true, ["t", "a.rs"]⟩, Entry.file [10])]⟩
      ⟨true, ["t", "a.rs"]⟩ = some [10]
  ∧ Fs.lookup ⟨[(⟨true, ["s"]⟩, Entry.dir),
        (⟨true, ["s", "a.rs"]⟩, Entry.file [10]),
        (⟨true, ["s", "b.txt"]⟩, Entry.file [20]),
        (⟨true, ["t"]⟩, Entry.dir),
        (⟨true, ["t", "a.rs"]⟩, Entry.file [10])]⟩
      ⟨true, ["t", "b.txt"]⟩ = none
  ∧ (copy_files ⟨[(⟨true, ["s"]⟩, Entry.dir),
        (⟨true, ["s", "dev"]⟩, Entry.special)]⟩
        ⟨true, ["t"]⟩ ⟨true, ["s"]⟩ ["*"]
      = .ok ⟨[(⟨true, ["s"]⟩, Entry.dir),
        (⟨true, ["s", "dev"]⟩, Entry.special)]⟩)
  ∧ Fs.lookup ⟨[(⟨true, ["s"]⟩, Entry.dir),
        (⟨true, ["s", "dev"]⟩, Entry.special)]⟩
      ⟨true, ["t", "dev"]⟩ = none := by
  refine ⟨?_, by rfl, by rfl, by rfl, by rfl, by rfl⟩
  cases hcan : fs.canonicalize source with
  | none => rw [copy_files_eq_none hcan] at hrun; cases hrun
  | some src0 =>
    obtain ⟨hsrc, hdir⟩ := Fs.canonicalize_some hcan
    subst hsrc
    rw [copy_files_eq_some hcan] at hrun
    obtain ⟨iagr, iwalk, idone, -, -⟩ :=
      copyLoop_ok_invariant pats h1 h2 (fs.walkMatching src0 pats) fs fs1
        hrun (fun r _ => rfl)
        (fun e he => walkEntries_rel_ne_nil he)
        (walkEntries_rels_nodup hNodup)
    have hdir1 : fs1.IsDirAt src0 := by
      rcases hdir with h | h
      · exact Or.inl h
      · refine Or.inr ?_
        rw [iagr src0 (RPath.prefixOf_refl src0)]
        exact h
    have hcan1 : fs1.canonicalize src0 = some src0 := by
      unfold Fs.canonicalize
      rw [if_pos hdir1]
    rw [copy_files_eq_some hcan1]
    have hwm : fs1.walkMatching src0 pats = fs.walkMatching src0 pats :=
      iwalk
    rw [hwm]
    exact copyLoop_id iagr _ fun e he =>
      ⟨walkEntries_rel_ne_nil he, idone e he⟩

/-- C8 witness: the glob example run is a concrete successful first run
satisfying every hypothesis, and the second run returns the same tree. -/
theorem copy_files_spec_witness :
    (((⟨[(⟨true, ["s"]⟩, Entry.dir),
        (⟨true, ["s", "a.rs"]⟩, Entry.file [10]),
        (⟨true, ["s", "b.txt"]⟩, Entry.file [20])]⟩ : Fs).entries.map
          Prod.fst).Nodup
    ∧ RPath.prefixOf ⟨true, ["s"]⟩ ⟨true, ["t"]⟩ = false
    ∧ RPath.prefixOf ⟨true, ["t"]⟩ ⟨true, ["s"]⟩ = false
    ∧ copy_files ⟨[(⟨true, ["s"]⟩, Entry.dir),
        (⟨true, ["s", "a.rs"]⟩, Entry.file [10]),
        (⟨true, ["s", "b.txt"]⟩, Entry.file [20])]⟩
        ⟨true, ["t"]⟩ ⟨true, ["s"]⟩ ["*.rs"]
      = .ok ⟨[(⟨true, ["s"]⟩, Entry.dir),
        (⟨true, ["s", "a.rs"]⟩, Entry.file [10]),
        (⟨true, ["s", "b.txt"]⟩, Entry.file [20]),
        (⟨true, ["t"]⟩, Entry.dir),
        (⟨true, ["t", "a.rs"]⟩, Entry.file [10])]⟩)
  ∧ copy_files ⟨[(⟨true, ["s"]⟩, Entry.dir),
        (⟨true, ["s", "a.rs"]⟩, Entry.file [10]),
        (⟨true, ["s", "b.txt"]⟩, Entry.file [20]),
        (⟨true, ["t"]⟩, Entry.dir),
        (⟨true, ["t", "a.rs"]⟩, Entry.file [10])]⟩
        ⟨true, ["t"]⟩ ⟨true, ["s"]⟩ ["*.rs"]
      = .ok ⟨[(⟨true, ["s"]⟩, Entry.dir),
        (⟨true, ["s", "a.rs"]⟩, Entry.file [10]),
        (⟨true, ["s", "b.txt"]⟩, Entry.file [20]),
        (⟨true, ["t"]⟩, Entry.dir),
        (⟨true, ["t", "a.rs"]⟩, Entry.file [10])]⟩ :=
  ⟨⟨by decide, by decide, by decide, by rfl⟩,
   (copy_files_spec
      ⟨[(⟨true, ["s"]⟩, Entry.dir),
        (⟨true, ["s", "a.rs"]⟩, Entry.file [10]),
        (⟨true, ["s", "b.txt"]⟩, Entry.file [20])]⟩
      ⟨[(⟨true, ["s"]⟩, Entry.dir),
        (⟨true, ["s", "a.rs"]⟩, Entry.file [10]),
        (⟨true, ["s", "b.txt"]⟩, Entry.file [20]),
        (⟨true, ["t"]⟩, Entry.dir),
        (⟨true, ["t", "a.rs"]⟩, Entry.file [10])]⟩
      ⟨true, ["t"]⟩ ⟨true, ["s"]⟩ ["*.rs"]
      (by decide) (by decide) (by decide) (by rfl)).1⟩

end AssertFs
